import Mathlib

/-
Shallow embedding of the PageSpeed dashboard (src/streamlit_app.py).

JSON values from the Lighthouse API are modelled by the inductive `Val`;
audits are modelled by the `Audit` structure (score : float|null, a
scoreDisplayMode string, title, displayValue, description, and the raw
`details` dictionary).  Python exceptions are modelled by `Except Unit`;
machine floats are modelled by exact rationals, with Python string
formatting (f"{x:.1f}" etc.) reproduced by `fmtFixed` using
round-half-even.
-/

namespace PageSpeed

/-- A JSON value as manipulated by the Python code.  Python dicts with
string keys become association lists (first match wins; keys are unique
in real payloads); both ints and floats are represented by a rational. -/
inductive Val where
  | null : Val
  | str (s : String) : Val
  | num (q : ℚ) : Val
  | arr (xs : List Val) : Val
  | obj (fs : List (String × Val)) : Val

mutual

/-- Computable size of a JSON value, used as recursion fuel. -/
def vsize : Val → ℕ
  | .null => 1
  | .str _ => 1
  | .num _ => 1
  | .arr xs => 1 + lsize xs
  | .obj fs => 1 + psize fs

/-- Size of a list of JSON values. -/
def lsize : List Val → ℕ
  | [] => 0
  | v :: vs => 1 + vsize v + lsize vs

/-- Size of a string-keyed field list. -/
def psize : List (String × Val) → ℕ
  | [] => 0
  | p :: fs => 1 + vsize p.2 + psize fs

end

/-- Python dict `.get(k)`: `some v` when key present, `none` when absent. -/
def dget (fs : List (String × Val)) (k : String) : Option Val :=
  match fs with
  | [] => none
  | (k1, v) :: rest => if k1 = k then some v else dget rest k

/-- A single-quote character, used by the Python `repr` of strings. -/
def sq : String := String.singleton (Char.ofNat 39)

/-- Multiplication on ℚ, written on numerators and denominators so that
it reduces in the kernel (`Rat.mul` is irreducible); proved equal to `*`
in `qmul_eq`. -/
def qmul (a b : ℚ) : ℚ := Rat.divInt (a.num * b.num) (Int.ofNat (a.den * b.den))

/-- Subtraction on ℚ in reducible form; proved equal to `-` in `qsub_eq`. -/
def qsub (a b : ℚ) : ℚ :=
  Rat.divInt (a.num * Int.ofNat b.den - b.num * Int.ofNat a.den) (Int.ofNat (a.den * b.den))

/-- Division on ℚ in reducible form; proved equal to `/` in `qdiv_eq`. -/
def qdiv (a b : ℚ) : ℚ := Rat.divInt (a.num * Int.ofNat b.den) (b.num * Int.ofNat a.den)

/-- Absolute value on ℚ in reducible form; proved equal to `|.|` in `qabs_eq`. -/
def qabs (q : ℚ) : ℚ := Rat.divInt (Int.ofNat q.num.natAbs) (Int.ofNat q.den)

/-- The integer `z` as a rational, in reducible form. -/
def intQ (z : ℤ) : ℚ := Rat.divInt z 1

/-- Digits of the fractional part of a rational in [0,1), most
significant first, up to the given number of digits. -/
def fracDigits : ℕ → ℚ → String
  | 0, _ => ""
  | n + 1, q =>
    if q.num = 0 then ""
    else
      let q10 := qmul q 10
      let d := (⌊q10⌋ : ℤ).toNat
      toString d ++ fracDigits n (qsub q10 (intQ ⌊q10⌋))

/-- Python `str` of a number: integers print without a fractional part,
non-integers print their (finite) decimal expansion. -/
def ratStr (q : ℚ) : String :=
  if q.den = 1 then toString q.num
  else
    (if q < 0 then "-" else "") ++ toString ⌊qabs q⌋ ++ "." ++
      fracDigits 30 (qsub (qabs q) (intQ ⌊qabs q⌋))

/-- Fuel-indexed Python `repr` of a JSON value (the fuel is always
instantiated with `vsize v`, which bounds the recursion depth). -/
def pyReprF : ℕ → Val → String
  | 0, _ => ""
  | _ + 1, .null => "None"
  | _ + 1, .str s => sq ++ s ++ sq
  | _ + 1, .num q => ratStr q
  | n + 1, .arr xs => "[" ++ ", ".intercalate (xs.map (pyReprF n)) ++ "]"
  | n + 1, .obj fs =>
    "\x7b" ++ ", ".intercalate (fs.map (fun p => sq ++ p.1 ++ sq ++ ": " ++ pyReprF n p.2)) ++ "\x7d"

/-- Python `repr` of a JSON value. -/
def pyRepr (v : Val) : String := pyReprF (vsize v) v

/-- Python `str` of a JSON value (strings print bare, everything else as
its repr; `str(None) = "None"`). -/
def pyStr : Val → String
  | .str s => s
  | v => pyRepr v

/-- Python truthiness of a JSON value. -/
def truthy : Val → Bool
  | .null => false
  | .str s => !(s == "")
  | .num q => !(q == 0)
  | .arr xs => !xs.isEmpty
  | .obj fs => !fs.isEmpty

/-- Keep only lists all of whose elements are strings (the Python
`", ".join` raises TypeError otherwise). -/
def allStrings : List Val → Option (List String)
  | [] => some []
  | .str s :: vs => (allStrings vs).map (fun l => s :: l)
  | _ :: _ => none

/-- Fuel-indexed body of `clean_value` (streamlit_app.py lines 188-199).
The fuel is always instantiated with `vsize v`, which strictly bounds
the recursion depth, so `cvFuel (sizeOf v) v` computes exactly the
Python function; `Except.error ()` models a raised exception (the
`", ".join` TypeError on a list holding a non-string). -/
def cvFuel : ℕ → Val → Except Unit Val
  | 0, _ => .error ()
  | _ + 1, .null => .ok (.str "")
  | _ + 1, .str s => .ok (.str s)
  | _ + 1, .num q => .ok (.num q)
  | n + 1, .obj fs =>
    match dget fs "url" with
    | some u => .ok u
    | none =>
      match dget fs "snippet" with
      | some s => .ok s
      | none =>
        match dget fs "value" with
        | some v => .ok (.str (pyStr v))
        | none =>
          match dget fs "source" with
          | some w => cvFuel n w
          | none => .ok (.str (pyStr (.obj fs)))
  | n + 1, .arr xs => do
    let cs ← xs.mapM (cvFuel n)
    match allStrings cs with
    | some ss => .ok (.str (", ".intercalate ss))
    | none => .error ()

/-- `clean_value` (streamlit_app.py lines 188-199): recursively unpacks
Lighthouse JSON objects. -/
def clean_value (v : Val) : Except Unit Val := cvFuel (vsize v) v

/-- Bool substring test: `hasSubL n h` is Python `n in h` on char lists. -/
def hasSubL (needle : List Char) : List Char → Bool
  | [] => needle.isPrefixOf []
  | c :: rest => needle.isPrefixOf (c :: rest) || hasSubL needle rest

/-- Python `needle in hay` on strings. -/
def hasSubstr (needle hay : String) : Bool := hasSubL needle.toList hay.toList

/-- Python `.lower()` (ASCII letters; the heading keys are ASCII). -/
def lowerStr (s : String) : String := String.mk (s.toList.map Char.toLower)

/-- Round half to even (the rounding Python's fixed-point formatting
performs on exactly representable values). -/
def rhe (x : ℚ) : ℤ :=
  let f := ⌊x⌋
  let r := qsub x (intQ f)
  if r < mkRat 1 2 then f
  else if mkRat 1 2 < r then f + 1
  else if f % 2 = 0 then f else f + 1

/-- Python `f"{q:.d f}"`: fixed-point rendering with `d` digits after the
decimal point. -/
def fmtFixed (d : ℕ) (q : ℚ) : String :=
  let n := rhe (qmul q (intQ ((10 : ℤ) ^ d)))
  let m := n.natAbs
  let sign := if q < 0 then "-" else ""
  if d = 0 then sign ++ toString m
  else
    let p := (10 : ℕ) ^ d
    let frs := toString (m % p)
    let pad := String.mk (List.replicate (d - frs.length) (Char.ofNat 48))
    sign ++ toString (m / p) ++ "." ++ pad ++ frs

/-- `format_col` (streamlit_app.py lines 201-212): auto-detects bytes/ms
from the heading key and formats numeric cells human-readably; all other
cells go through `clean_value`.  The key is an arbitrary JSON value
(`str(key).lower()` in the source). -/
def format_col (key : Val) (val : Val) : Except Unit Val :=
  match val with
  | .num q =>
    let k := lowerStr (pyStr key)
    if hasSubstr "byte" k || hasSubstr "size" k || hasSubstr "transfer" k then
      .ok (.str (fmtFixed 1 (qdiv q 1024) ++ " KB"))
    else if hasSubstr "time" k || hasSubstr "ms" k || hasSubstr "dur" k then
      if q > 1000 then .ok (.str (fmtFixed 2 (qdiv q 1000) ++ " s"))
      else .ok (.str (fmtFixed 0 q ++ " ms"))
    else clean_value val
  | v => clean_value v

/-- Helper for the regex `\[(.*?)\]\(.*?\)`: split the input at the first
`)` to give the url part (`.` does not match a newline, so a newline
before any `)` makes the url part fail). -/
def firstParen : List Char → Option (List Char × List Char)
  | [] => none
  | c :: rest =>
    if c = ')' then some ([], rest)
    else if c = '\n' then none
    else (firstParen rest).map (fun p => (c :: p.1, p.2))

/-- Helper for the regex `\[(.*?)\]\(.*?\)`: given the characters after
an opening `[`, find the lazy match of `(.*?)\]\(.*?\)`, returning the
captured text and the remainder after the closing `)`.  A `](` whose url
part has no closing `)` is backtracked past, exactly as the lazy
quantifier does. -/
def findLinkAux : List Char → Option (List Char × List Char)
  | [] => none
  | ']' :: '(' :: rest2 =>
    (match firstParen rest2 with
     | some p => some ([], p.2)
     | none =>
       match findLinkAux ('(' :: rest2) with
       | some q => some (']' :: q.1, q.2)
       | none => none)
  | c :: rest =>
    if c = '\n' then none
    else (findLinkAux rest).map (fun q => (c :: q.1, q.2))

/-- Fuel-indexed scan of `re.sub(r'\[(.*?)\]\(.*?\)', r'\1', s)`: each
leftmost match `[text](url)` is replaced by `text` and scanning resumes
after the match.  The fuel is instantiated with the list length, which
bounds the number of scanning steps. -/
def stripAux : ℕ → List Char → List Char
  | 0, cs => cs
  | _ + 1, [] => []
  | n + 1, c :: rest =>
    if c = '[' then
      match findLinkAux rest with
      | some p => p.1 ++ stripAux n p.2
      | none => c :: stripAux n rest
    else c :: stripAux n rest

/-- `re.sub(r'\[(.*?)\]\(.*?\)', r'\1', ·)` on char lists. -/
def stripLinks (cs : List Char) : List Char := stripAux cs.length cs

/-- Description cleanup (streamlit_app.py line 280): replace every
markdown link `[text](url)` by its link text. -/
def strip_markdown_links (s : String) : String := String.mk (stripLinks s.toList)

/-- A Lighthouse audit entry as read by the Python code: `score` is a
float or null, the other scalar fields are read with `.get`, and
`details` is the raw details dictionary (`audit.get("details", {})`). -/
structure Audit where
  score : Option ℚ
  scoreDisplayMode : String
  title : Option String
  displayValue : Option String
  description : String
  details : List (String × Val)

/-- Python `==` on JSON values, fuel-indexed (fuel is instantiated with
`vsize a`, which bounds the recursion depth).  Dict comparison is
key-based, matching Python's order-insensitive dict equality. -/
def vbF : ℕ → Val → Val → Bool
  | 0, _, _ => false
  | _ + 1, .null, .null => true
  | _ + 1, .str a, .str b => a == b
  | _ + 1, .num a, .num b => a == b
  | n + 1, .arr xs, .arr ys =>
    xs.length == ys.length && (xs.zip ys).all (fun p => vbF n p.1 p.2)
  | n + 1, .obj fs, .obj gs =>
    fs.length == gs.length &&
      fs.all (fun p =>
        match dget gs p.1 with
        | some v => vbF n p.2 v
        | none => false)
  | _ + 1, _, _ => false

/-- Python `==` on JSON values. -/
def valBeq (a b : Val) : Bool := vbF (vsize a) a b

/-- Python dict assignment `row[label] = v` on an association-list row:
overwrite in place when the key is already present (keeping its
position, as Python dicts do), else append. -/
def rowInsert (r : List (Val × Val)) (k v : Val) : List (Val × Val) :=
  if r.any (fun p => valBeq p.1 k) then
    r.map (fun p => if valBeq p.1 k then (p.1, v) else p)
  else r ++ [(k, v)]

/-- One row of the evidence table: display label to formatted cell. -/
abbrev Row := List (Val × Val)

/-- Python `item.get(key)` where the key is itself a JSON value (a
missing heading key gives `item.get(None)`, which is `None` on a
string-keyed dict). -/
def itemGet (fs : List (String × Val)) (k : Val) : Val :=
  match k with
  | .str s => (dget fs s).getD .null
  | _ => .null

/-- `h.get('text', h.get('label', key))`: the display label of a heading. -/
def labelOf (hf : List (String × Val)) (key : Val) : Val :=
  match dget hf "text" with
  | some t => t
  | none =>
    match dget hf "label" with
    | some l => l
    | none => key

/-- The inner loop of `extract_details` (lines 230-236): build one row
from an item, one cell per heading; a non-dict heading raises. -/
def mkRow (headers : List Val) (item : List (String × Val)) : Except Unit Row :=
  headers.foldlM
    (fun r h =>
      match h with
      | .obj hf => do
        let key := (dget hf "key").getD .null
        let label := labelOf hf key
        let fv ← format_col key (itemGet item key)
        .ok (rowInsert r label fv)
      | _ => .error ())
    []

/-- The sub-item loop of `extract_details` (lines 241-250): like `mkRow`
but the label fallback is only `h.get('text', k)` and the first column is
prefixed with an indentation marker. -/
def mkSubRow (headers : List Val) (sub : Val) : Except Unit Row :=
  match sub with
  | .obj sfs =>
    headers.foldlM
      (fun r h =>
        match h with
        | .obj hf => do
          let k := (dget hf "key").getD .null
          let l := (dget hf "text").getD k
          let fv ← format_col k (itemGet sfs k)
          let firstKey ←
            match headers with
            | .obj h0f :: _ => Except.ok ((dget h0f "key").getD Val.null)
            | _ => Except.error ()
          let cell := if valBeq k firstKey then Val.str ("↳ " ++ pyStr fv) else fv
          .ok (rowInsert r l cell)
        | _ => .error ())
      []
  | _ => .error ()

/-- `headers = [{"key": k, "text": k} for k in items[0].keys()]` (line
227); raises when the first item is not a dict. -/
def guessHeaders (items : List Val) : Except Unit (List Val) :=
  match items with
  | .obj fs :: _ => .ok (fs.map (fun p => Val.obj [("key", .str p.1), ("text", .str p.1)]))
  | _ => .error ()

/-- `headers = details.get('headings', []); if not headers: ...` (lines
224-227); a truthy non-list headings value raises when iterated. -/
def getHeaders (details : List (String × Val)) (items : List Val) : Except Unit (List Val) :=
  match dget details "headings" with
  | some hv =>
    if truthy hv then
      match hv with
      | .arr hs => .ok hs
      | _ => .error ()
    else guessHeaders items
  | none => guessHeaders items

/-- The per-item body of `extract_details` (lines 230-252): the item row,
followed by one row per sub-item when `subItems.items` is truthy. -/
def processItem (headers : List Val) (rows : List Row) (it : Val) : Except Unit (List Row) :=
  match it with
  | .obj fs => do
    let row ← mkRow headers fs
    match dget fs "subItems" with
    | some (.obj sfs) =>
      if truthy ((dget sfs "items").getD .null) then
        match (dget sfs "items").getD .null with
        | .arr subs => do
          let subRows ← subs.mapM (mkSubRow headers)
          .ok (rows ++ [row] ++ subRows)
        | _ => .error ()
      else .ok (rows ++ [row])
    | some _ => .error ()
    | none => .ok (rows ++ [row])
  | _ => .error ()

/-- `extract_details` (streamlit_app.py lines 214-255): extracts the
granular file table from an audit.  `ok none` models `return None` (no
table); only a `details.items` payload is tabulated. -/
def extract_details (a : Audit) : Except Unit (Option (List Row)) :=
  match dget a.details "items" with
  | none => .ok none
  | some itemsVal =>
    if truthy itemsVal = false then .ok none
    else
      match itemsVal with
      | .arr items => do
        let headers ← getHeaders a.details items
        let rows ← items.foldlM (processItem headers) []
        .ok (some rows)
      | _ => .error ()

/-- `bool(audit.get("details", {}).get("items"))` (line 275). -/
def has_data (a : Audit) : Bool :=
  match dget a.details "items" with
  | some v => truthy v
  | none => false

/-- The relevance filter of `get_grouped_audits` (line 276):
`(score is not None and score < 0.9) or (score is None and has_data)`. -/
def is_relevant (a : Audit) : Bool :=
  match a.score with
  | some s => decide (s < mkRat 9 10)
  | none => has_data a

/-- One finding produced by `get_grouped_audits` (lines 285-293). -/
structure Item where
  id : String
  title : Option String
  score : Option ℚ
  displayValue : Option String
  description : String
  savings : Val
  data : Option (List Row)

/-- `mkItem key audit` builds the finding dict of lines 285-293. -/
def mkItem (k : String) (a : Audit) : Except Unit Item :=
  match extract_details a with
  | .error e => .error e
  | .ok data =>
    .ok
      { id := k
        title := a.title
        score := a.score
        displayValue := a.displayValue
        description := strip_markdown_links a.description
        savings := (dget a.details "overallSavingsMs").getD (.num 0)
        data := data }

/-- Audit ids of the "JavaScript & CPU" vertical (line 263). -/
def jsKeys : List String :=
  ["unused-javascript", "long-tasks", "mainthread-work-breakdown", "bootup-time",
   "script-treemap-data", "third-party-summary"]

/-- Audit ids of the "CSS & Design" vertical (line 264). -/
def cssKeys : List String :=
  ["unused-css-rules", "render-blocking-resources", "cls", "non-composited-animations",
   "layout-shift-elements"]

/-- Audit ids of the "Assets (Images/Fonts)" vertical (line 265). -/
def assetKeys : List String :=
  ["modern-image-formats", "properly-size-images", "efficient-animated-content",
   "offscreen-images", "uses-optimized-images"]

/-- Audit ids of the "Server & Network" vertical (line 266). -/
def serverKeys : List String :=
  ["server-response-time", "uses-text-compression", "redirects", "uses-http2",
   "total-byte-weight"]

/-- The group an audit id is placed in (lines 296-303): the first group
whose id list contains the key, else the "Other" fallback. -/
def groupOf (k : String) : String :=
  if jsKeys.contains k then "JavaScript & CPU"
  else if cssKeys.contains k then "CSS & Design"
  else if assetKeys.contains k then "Assets (Images/Fonts)"
  else if serverKeys.contains k then "Server & Network"
  else "Other"

/-- The initial output dict `{k: [] for k in groups} | {"Other": []}`
(lines 269-270), in insertion order. -/
def emptyOutput : List (String × List Item) :=
  [("JavaScript & CPU", []), ("CSS & Design", []), ("Assets (Images/Fonts)", []),
   ("Server & Network", []), ("Other", [])]

/-- `output[g].append(item)`: append an item to the named group. -/
def appendAt (out : List (String × List Item)) (g : String) (it : Item) :
    List (String × List Item) :=
  out.map (fun p => if p.1 = g then (p.1, p.2 ++ [it]) else p)

/-- The sort key of line 307: `x['score'] if x['score'] is not None else 1`. -/
def sortKey (it : Item) : ℚ :=
  match it.score with
  | some s => s
  | none => 1

/-- Stable insertion into a list sorted ascending by `sortKey`: the new
item goes after all items whose key is less than or equal to its own. -/
def sortedInsert (x : Item) : List Item → List Item
  | [] => [x]
  | y :: ys => if sortKey y ≤ sortKey x then y :: sortedInsert x ys else x :: y :: ys

/-- `sorted(l, key=lambda x: x['score'] if x['score'] is not None else 1)`
(line 307): Python's sort is exactly the stable ascending sort by key,
which stable insertion computes. -/
def sortByScore (l : List Item) : List Item :=
  l.foldl (fun acc x => sortedInsert x acc) []

/-- One iteration of the audit loop (lines 272-303): a relevant audit's
finding is appended to its group; an irrelevant audit leaves the output
unchanged; an exception from building the finding propagates. -/
def groupStep (out : List (String × List Item)) (ka : String × Audit) :
    Except Unit (List (String × List Item)) :=
  if is_relevant ka.2 then
    match mkItem ka.1 ka.2 with
    | .error e => .error e
    | .ok it => .ok (appendAt out (groupOf ka.1) it)
  else .ok out

/-- `get_grouped_audits` (streamlit_app.py lines 257-309): filter the
audit map by relevance, build one finding per relevant audit, place it
in its engineering vertical, and sort each group by score. -/
def get_grouped_audits (audits : List (String × Audit)) :
    Except Unit (List (String × List Item)) :=
  match audits.foldlM groupStep emptyOutput with
  | .error e => .error e
  | .ok out => .ok (out.map (fun p => (p.1, sortByScore p.2)))

/-- An HTTP response as seen by `run_pagespeed`: a status code and, when
the body parses as JSON, the parsed value. -/
structure HttpResponse where
  status_code : ℕ
  body : Option Val

/-- The error-message extraction of lines 171-172:
`response.json().get('error', {}).get('message', 'Unknown')` with the
bare-except fallback `f"Status {response.status_code}"` whenever that
expression raises (non-JSON body, non-dict JSON, non-dict error value). -/
def extract_error (r : HttpResponse) : String :=
  match r.body with
  | some (.obj fs) =>
    match dget fs "error" with
    | some (.obj efs) =>
      match dget efs "message" with
      | some m => pyStr m
      | none => "Unknown"
    | some _ => "Status " ++ toString r.status_code
    | none => "Unknown"
  | _ => "Status " ++ toString r.status_code

/-- Python `s.startswith(p)`, on the underlying character lists. -/
def startsWithStr (p s : String) : Bool := p.toList.isPrefixOf s.toList

/-- URL normalization of line 162:
`if not url.startswith("http"): url = "https://" + url`. -/
def normalize_url (url : String) : String :=
  if startsWithStr "http" url then url else "https://" ++ url

/-- The response handling of `run_pagespeed` (lines 166-175), given the
HTTP response for the request: 200 returns the parsed JSON, otherwise an
error string `"Google API Error: <extracted message>"`.  A 200 response
whose body is not JSON raises inside the outer try and surfaces as a
connection error (message abstracted). -/
def run_pagespeed (r : HttpResponse) : Except String Val :=
  if r.status_code = 200 then
    match r.body with
    | some v => .ok v
    | none => .error "Connection Error: response body is not JSON"
  else .error ("Google API Error: " ++ extract_error r)

/-- The presenter's priority encoding (lines 423-424): a red icon (high)
for score < 0.5, yellow (medium) otherwise, informational for a null
score. -/
def priorityOf (it : Item) : String :=
  match it.score with
  | some s => if s < mkRat 1 2 then "high" else "medium"
  | none => "informational"

/-- All items of a grouped output, in group order. -/
def outItems (out : List (String × List Item)) : List Item :=
  (out.map Prod.snd).flatten

/-- The audit with the given key appears among the grouped findings. -/
def appearsIn (out : List (String × List Item)) (key : String) : Prop :=
  ∃ p ∈ out, ∃ it ∈ p.2, it.id = key

/-- Modelled from the spec (section 4.2): the claimed relevance rule
`is_relevant = (score is not null AND score < 0.9) OR (score is null AND
scoreDisplayMode == informative AND a display value or detail table is
present)`.  Stated from the spec's words, to be compared with the
source-derived `is_relevant`. -/
def spec_is_relevant (a : Audit) : Prop :=
  (∃ s, a.score = some s ∧ s < mkRat 9 10) ∨
  (a.score = none ∧ a.scoreDisplayMode = "informative" ∧
    (a.displayValue ≠ none ∨ has_data a = true))

/-- Modelled from the spec (section 4.1): a url "carries a scheme" when
it contains the separator `://`. -/
abbrev url_has_scheme (u : String) : Prop := hasSubstr "://" u = true

/-! Lemmas: the reducible rational helpers agree with the standard
operations on ℚ. -/

theorem qmul_eq (a b : ℚ) : qmul a b = a * b := by
  rw [qmul, Rat.divInt_eq_div]
  push_cast [Int.ofNat_eq_coe]
  conv_rhs => rw [← Rat.num_div_den a, ← Rat.num_div_den b]
  rw [div_mul_div_comm]

theorem qsub_eq (a b : ℚ) : qsub a b = a - b := by
  have ha : (a.den : ℚ) ≠ 0 := by exact_mod_cast a.den_nz
  have hb : (b.den : ℚ) ≠ 0 := by exact_mod_cast b.den_nz
  rw [qsub, Rat.divInt_eq_div]
  push_cast [Int.ofNat_eq_coe]
  conv_rhs => rw [← Rat.num_div_den a, ← Rat.num_div_den b]
  rw [div_sub_div _ _ ha hb]
  ring_nf

theorem qdiv_eq (a b : ℚ) : qdiv a b = a / b := by
  rw [qdiv, Rat.div_def', Int.mul_comm (a.den : ℤ) b.num]
  rfl

theorem qabs_eq (q : ℚ) : qabs q = |q| := by
  rcases le_or_lt 0 q with h | h
  · have hn : 0 ≤ q.num := Rat.num_nonneg.mpr h
    rw [abs_of_nonneg h, qabs,
      show Int.ofNat q.num.natAbs = q.num from Int.natAbs_of_nonneg hn]
    exact Rat.num_divInt_den q
  · have hn : q.num < 0 := Rat.num_neg.mpr h
    rw [abs_of_neg h, qabs,
      show Int.ofNat q.num.natAbs = -q.num from Int.ofNat_natAbs_of_nonpos (le_of_lt hn)]
    simp only [Int.ofNat_eq_coe]
    rw [← Rat.neg_divInt, Rat.num_divInt_den q]

theorem intQ_eq (z : ℤ) : intQ z = (z : ℚ) := by
  rw [intQ, Rat.divInt_eq_div]
  push_cast
  exact div_one _

/-! Lemmas about the markdown-link stripping scan. -/

theorem firstParen_length {cs : List Char} {p : List Char × List Char}
    (h : firstParen cs = some p) : p.2.length ≤ cs.length := by
  induction cs generalizing p with
  | nil => simp [firstParen] at h
  | cons c rest ih =>
    rw [firstParen] at h
    split at h
    · cases h
      simp
    · split at h
      · cases h
      · cases hr : firstParen rest with
        | none => rw [hr] at h; cases h
        | some q =>
          rw [hr] at h
          cases h
          have := ih hr
          simpa using Nat.le_succ_of_le this

theorem findLinkAux_length {cs : List Char} {p : List Char × List Char}
    (h : findLinkAux cs = some p) : p.2.length ≤ cs.length := by
  induction cs using findLinkAux.induct generalizing p with
  | case1 => simp [findLinkAux] at h
  | case2 rest2 q hq =>
    rw [findLinkAux, hq] at h
    cases h
    have := firstParen_length hq
    simp
    omega
  | case3 rest2 hfp q hfl ih =>
    rw [findLinkAux, hfp, hfl] at h
    cases h
    have := ih hfl
    simp at this ⊢
    omega
  | case4 rest2 hfp hfl ih =>
    rw [findLinkAux, hfp, hfl] at h
    cases h
  | case5 rest hne =>
    rw [findLinkAux] at h
    rotate_left
    · exact hne
    rw [if_pos rfl] at h
    cases h
  | case6 c rest hne hc ih =>
    rw [findLinkAux] at h
    rotate_left
    · exact hne
    rw [if_neg hc] at h
    cases hr : findLinkAux rest with
    | none => rw [hr] at h; cases h
    | some q =>
      rw [hr] at h
      cases h
      have := ih hr
      simpa using Nat.le_succ_of_le this

theorem stripAux_fuel (n : ℕ) (cs : List Char) (hlen : cs.length ≤ n) :
    stripAux n cs = stripLinks cs := by
  induction n using Nat.strong_induction_on generalizing cs with
  | _ n ih =>
    cases n with
    | zero =>
      have : cs = [] := List.length_eq_zero.mp (Nat.le_zero.mp hlen)
      subst this
      rfl
    | succ m =>
      cases cs with
      | nil => rfl
      | cons c rest =>
        have hr : rest.length ≤ m := by simpa using hlen
        rw [stripLinks]
        show stripAux (m + 1) (c :: rest) = stripAux (rest.length + 1) (c :: rest)
        rw [stripAux, stripAux]
        by_cases hc : c = '['
        · rw [if_pos hc, if_pos hc]
          cases hfl : findLinkAux rest with
          | none =>
            rw [ih m (Nat.lt_succ_self m) rest hr,
              ih rest.length (Nat.lt_succ_of_le hr) rest (le_refl _)]
          | some p =>
            have hpl := findLinkAux_length hfl
            dsimp only
            rw [ih m (Nat.lt_succ_self m) p.2 (le_trans hpl hr),
              ih rest.length (Nat.lt_succ_of_le hr) p.2 hpl]
        · rw [if_neg hc, if_neg hc]
          rw [ih m (Nat.lt_succ_self m) rest hr,
            ih rest.length (Nat.lt_succ_of_le hr) rest (le_refl _)]

theorem stripLinks_cons_of_ne {c : Char} (hc : c ≠ '[') (cs : List Char) :
    stripLinks (c :: cs) = c :: stripLinks cs := by
  rw [stripLinks]
  show stripAux (cs.length + 1) (c :: cs) = _
  rw [stripAux, if_neg hc]
  rfl

theorem stripLinks_link {rest : List Char} {p : List Char × List Char}
    (hfl : findLinkAux rest = some p) :
    stripLinks ('[' :: rest) = p.1 ++ stripLinks p.2 := by
  rw [stripLinks]
  show stripAux (rest.length + 1) ('[' :: rest) = _
  rw [stripAux, if_pos rfl, hfl]
  dsimp only
  rw [stripAux_fuel rest.length p.2 (findLinkAux_length hfl)]

theorem stripLinks_append_pre {pre : List Char} (hpre : '[' ∉ pre) (cs : List Char) :
    stripLinks (pre ++ cs) = pre ++ stripLinks cs := by
  induction pre with
  | nil => simp
  | cons c pre ih =>
    have hc : c ≠ '[' := fun h => hpre (by rw [h]; exact List.mem_cons_self _ _)
    have hpre2 : '[' ∉ pre := fun h => hpre (List.mem_cons_of_mem _ h)
    rw [List.cons_append, stripLinks_cons_of_ne hc, ih hpre2, List.cons_append]

theorem firstParen_spec {url : List Char} (h1 : ')' ∉ url) (h2 : '\n' ∉ url)
    (rest : List Char) : firstParen (url ++ ')' :: rest) = some (url, rest) := by
  induction url with
  | nil => rw [List.nil_append, firstParen, if_pos rfl]
  | cons c url ih =>
    have hc1 : c ≠ ')' := fun h => h1 (by rw [h]; exact List.mem_cons_self _ _)
    have hc2 : c ≠ '\n' := fun h => h2 (by rw [h]; exact List.mem_cons_self _ _)
    have h1t : ')' ∉ url := fun h => h1 (List.mem_cons_of_mem _ h)
    have h2t : '\n' ∉ url := fun h => h2 (List.mem_cons_of_mem _ h)
    rw [List.cons_append, firstParen, if_neg hc1, if_neg hc2, ih h1t h2t]
    rfl

theorem findLinkAux_spec {text url : List Char} (ht1 : ']' ∉ text) (ht2 : '\n' ∉ text)
    (hu1 : ')' ∉ url) (hu2 : '\n' ∉ url) (post : List Char) :
    findLinkAux (text ++ ']' :: '(' :: (url ++ ')' :: post)) = some (text, post) := by
  induction text with
  | nil =>
    rw [List.nil_append, findLinkAux, firstParen_spec hu1 hu2 post]
  | cons c text ih =>
    have hc1 : c ≠ ']' := fun h => ht1 (by rw [h]; exact List.mem_cons_self _ _)
    have hc2 : c ≠ '\n' := fun h => ht2 (by rw [h]; exact List.mem_cons_self _ _)
    have ht1t : ']' ∉ text := fun h => ht1 (List.mem_cons_of_mem _ h)
    have ht2t : '\n' ∉ text := fun h => ht2 (List.mem_cons_of_mem _ h)
    rw [List.cons_append, findLinkAux]
    rotate_left
    · intro rest2 hc _
      exact hc1 hc
    rw [if_neg hc2, ih ht1t ht2t]
    rfl

/-- Composite: the scan replaces a well-formed leftmost markdown link by
its text and continues after it. -/
theorem stripLinks_replace {pre text url post : List Char}
    (hpre : '[' ∉ pre) (ht1 : ']' ∉ text) (ht2 : '\n' ∉ text)
    (hu1 : ')' ∉ url) (hu2 : '\n' ∉ url) :
    stripLinks (pre ++ '[' :: (text ++ ']' :: '(' :: (url ++ ')' :: post))) =
      pre ++ text ++ stripLinks post := by
  rw [stripLinks_append_pre hpre,
    stripLinks_link (findLinkAux_spec ht1 ht2 hu1 hu2 post), List.append_assoc]

/-! Lemmas about `clean_value` and its fuel. -/

theorem vsize_pos (v : Val) : 1 ≤ vsize v := by
  cases v <;> rw [vsize] <;> omega

theorem mem_lsize {x : Val} {xs : List Val} (h : x ∈ xs) : vsize x < lsize xs := by
  induction xs with
  | nil => cases h
  | cons y ys ih =>
    rw [lsize]
    rcases List.mem_cons.mp h with rfl | hmem
    · omega
    · have := ih hmem
      omega

theorem mem_psize {k : String} {v : Val} {fs : List (String × Val)} (h : (k, v) ∈ fs) :
    vsize v < psize fs := by
  induction fs with
  | nil => cases h
  | cons p rest ih =>
    rw [psize]
    rcases List.mem_cons.mp h with heq | hmem
    · obtain rfl : v = p.2 := congrArg Prod.snd heq
      omega
    · have := ih hmem
      omega

theorem dget_mem {fs : List (String × Val)} {k : String} {v : Val}
    (h : dget fs k = some v) : (k, v) ∈ fs := by
  induction fs with
  | nil => cases h
  | cons p rest ih =>
    match p, h with
    | (k1, v1), h =>
      rw [dget] at h
      split at h
      · cases h
        rename_i heq
        subst heq
        exact List.mem_cons_self _ _
      · exact List.mem_cons_of_mem _ (ih h)

theorem exceptMapM_congr {α β : Type} {f g : α → Except Unit β} {xs : List α}
    (h : ∀ x ∈ xs, f x = g x) : xs.mapM f = xs.mapM g := by
  induction xs with
  | nil => rfl
  | cons x rest ih =>
    rw [List.mapM_cons, List.mapM_cons, h x (List.mem_cons_self _ _),
      ih (fun y hy => h y (List.mem_cons_of_mem _ hy))]

theorem cvFuel_irrel : ∀ (n : ℕ) (v : Val), vsize v ≤ n → cvFuel n v = clean_value v := by
  intro n
  induction n using Nat.strong_induction_on with
  | _ n ih =>
    intro v hv
    cases n with
    | zero => exact absurd (le_trans (vsize_pos v) hv) (by omega)
    | succ m =>
      cases v with
      | null => rfl
      | str s => rfl
      | num q => rfl
      | obj fs =>
        have hvo : vsize (Val.obj fs) = psize fs + 1 := by rw [vsize]; omega
        have hps : psize fs ≤ m := by omega
        rw [clean_value, hvo, cvFuel, cvFuel]
        cases hu : dget fs "url" with
        | some u => rfl
        | none =>
          cases hs : dget fs "snippet" with
          | some s => rfl
          | none =>
            cases hval : dget fs "value" with
            | some w => rfl
            | none =>
              cases hsrc : dget fs "source" with
              | some w =>
                have hw : vsize w < psize fs := mem_psize (dget_mem hsrc)
                dsimp only
                rw [ih m (Nat.lt_succ_self m) w (by omega),
                  ih (psize fs) (by omega) w (by omega)]
              | none => rfl
      | arr xs =>
        have hvo : vsize (Val.arr xs) = lsize xs + 1 := by rw [vsize]; omega
        have hls : lsize xs ≤ m := by omega
        rw [clean_value, hvo, cvFuel, cvFuel]
        have hmap : xs.mapM (cvFuel m) = xs.mapM (cvFuel (lsize xs)) := by
          apply exceptMapM_congr
          intro x hx
          have hxs : vsize x < lsize xs := mem_lsize hx
          rw [ih m (Nat.lt_succ_self m) x (by omega),
            ih (lsize xs) (by omega) x (by omega)]
        rw [hmap]


/-! Lemmas about the grouping loop. -/

theorem exbind_ok {α β : Type} (a : α) (f : α → Except Unit β) :
    (Except.ok a >>= f) = f a := rfl

theorem exbind_error {α β : Type} (f : α → Except Unit β) :
    ((Except.error () : Except Unit α) >>= f) = .error () := rfl

theorem mkItem_ok {k : String} {a : Audit} {it : Item} (h : mkItem k a = .ok it) :
    it.id = k ∧ it.score = a.score := by
  rw [mkItem] at h
  cases hd : extract_details a with
  | error e => rw [hd] at h; cases h
  | ok d =>
    rw [hd] at h
    cases h
    exact ⟨rfl, rfl⟩

theorem appendAt_keys (out : List (String × List Item)) (g : String) (it : Item) :
    (appendAt out g it).map Prod.fst = out.map Prod.fst := by
  rw [appendAt, List.map_map]
  apply List.map_congr_left
  intro p _
  by_cases hp : p.1 = g
  · simp [hp]
  · simp [hp]

theorem outItems_nil : outItems [] = [] := rfl

theorem outItems_cons (p : String × List Item) (rest : List (String × List Item)) :
    outItems (p :: rest) = p.2 ++ outItems rest := by
  simp [outItems]

theorem mem_outItems_appendAt {out : List (String × List Item)} {g : String} {x y : Item} :
    y ∈ outItems (appendAt out g x) ↔
      y ∈ outItems out ∨ (y = x ∧ g ∈ out.map Prod.fst) := by
  induction out with
  | nil => simp [appendAt, outItems]
  | cons p rest ih =>
    have hstep : appendAt (p :: rest) g x =
        (if p.1 = g then (p.1, p.2 ++ [x]) else p) :: appendAt rest g x := rfl
    rw [hstep]
    by_cases hp : p.1 = g
    · rw [if_pos hp, outItems_cons, outItems_cons]
      simp only [List.mem_append, ih, List.map_cons, List.mem_cons, List.mem_singleton]
      have hg : g = p.1 := hp.symm
      tauto
    · rw [if_neg hp, outItems_cons, outItems_cons]
      simp only [List.mem_append, ih, List.map_cons, List.mem_cons]
      have hg : ¬ g = p.1 := fun h => hp h.symm
      tauto

theorem group_fold_mem :
    ∀ (audits : List (String × Audit)) (out0 out : List (String × List Item)),
      (∀ k, groupOf k ∈ out0.map Prod.fst) →
      audits.foldlM groupStep out0 = .ok out →
      ∀ y : Item,
        (y ∈ outItems out ↔
          y ∈ outItems out0 ∨
            ∃ ka ∈ audits, is_relevant ka.2 = true ∧ mkItem ka.1 ka.2 = .ok y) := by
  intro audits
  induction audits with
  | nil =>
    intro out0 out hkeys h y
    rw [List.foldlM_nil] at h
    have h2 : Except.ok out0 = Except.ok out := h
    cases h2
    simp
  | cons ka rest ih =>
    intro out0 out hkeys h y
    rw [List.foldlM_cons] at h
    cases hstep : groupStep out0 ka with
    | error e => rw [hstep, exbind_error] at h; cases h
    | ok out1 =>
      rw [hstep, exbind_ok] at h
      rw [groupStep] at hstep
      by_cases hrel : is_relevant ka.2 = true
      · rw [if_pos hrel] at hstep
        cases hmk : mkItem ka.1 ka.2 with
        | error e => rw [hmk] at hstep; cases hstep
        | ok it =>
          rw [hmk] at hstep
          cases hstep
          have hkeys1 : ∀ k, groupOf k ∈ (appendAt out0 (groupOf ka.1) it).map Prod.fst := by
            intro k
            rw [appendAt_keys]
            exact hkeys k
          rw [ih _ _ hkeys1 h y, mem_outItems_appendAt]
          constructor
          · rintro ((hy | ⟨rfl, _⟩) | ⟨kb, hkb, hb1, hb2⟩)
            · exact Or.inl hy
            · exact Or.inr ⟨ka, List.mem_cons_self _ _, hrel, hmk⟩
            · exact Or.inr ⟨kb, List.mem_cons_of_mem _ hkb, hb1, hb2⟩
          · rintro (hy | ⟨kb, hkb, hb1, hb2⟩)
            · exact Or.inl (Or.inl hy)
            · rcases List.mem_cons.mp hkb with rfl | hkb2
              · have hit : y = it := by rw [hmk] at hb2; cases hb2; rfl
                exact Or.inl (Or.inr ⟨hit, hkeys kb.1⟩)
              · exact Or.inr ⟨kb, hkb2, hb1, hb2⟩
      · rw [if_neg hrel] at hstep
        cases hstep
        rw [ih _ _ hkeys h y]
        constructor
        · rintro (hy | ⟨kb, hkb, hb1, hb2⟩)
          · exact Or.inl hy
          · exact Or.inr ⟨kb, List.mem_cons_of_mem _ hkb, hb1, hb2⟩
        · rintro (hy | ⟨kb, hkb, hb1, hb2⟩)
          · exact Or.inl hy
          · rcases List.mem_cons.mp hkb with rfl | hkb2
            · exact absurd hb1 hrel
            · exact Or.inr ⟨kb, hkb2, hb1, hb2⟩

theorem group_fold_steps :
    ∀ (audits : List (String × Audit)) (out0 out : List (String × List Item)),
      audits.foldlM groupStep out0 = .ok out →
      ∀ ka ∈ audits, is_relevant ka.2 = true → ∃ it, mkItem ka.1 ka.2 = .ok it := by
  intro audits
  induction audits with
  | nil =>
    intro out0 out h ka hka
    cases hka
  | cons kb rest ih =>
    intro out0 out h ka hka hrel
    rw [List.foldlM_cons] at h
    cases hstep : groupStep out0 kb with
    | error e => rw [hstep, exbind_error] at h; cases h
    | ok out1 =>
      rw [hstep, exbind_ok] at h
      rcases List.mem_cons.mp hka with rfl | hka2
      · rw [groupStep, if_pos hrel] at hstep
        cases hmk : mkItem ka.1 ka.2 with
        | error e => rw [hmk] at hstep; cases hstep
        | ok it => exact ⟨it, rfl⟩
      · exact ih out1 out h ka hka2 hrel

theorem mem_sortedInsert {x y : Item} :
    ∀ {l : List Item}, y ∈ sortedInsert x l ↔ y = x ∨ y ∈ l := by
  intro l
  induction l with
  | nil => simp [sortedInsert]
  | cons z zs ih =>
    rw [sortedInsert]
    by_cases hle : sortKey z ≤ sortKey x
    · rw [if_pos hle]
      simp only [List.mem_cons, ih]
      tauto
    · rw [if_neg hle]
      simp only [List.mem_cons]

theorem mem_sortByScore {y : Item} {l : List Item} : y ∈ sortByScore l ↔ y ∈ l := by
  suffices h : ∀ (l acc : List Item),
      (y ∈ l.foldl (fun acc x => sortedInsert x acc) acc ↔ y ∈ acc ∨ y ∈ l) by
    have := h l []
    simpa [sortByScore] using this
  intro l
  induction l with
  | nil => intro acc; simp
  | cons x xs ih =>
    intro acc
    rw [List.foldl_cons, ih]
    simp only [mem_sortedInsert, List.mem_cons]
    tauto

theorem sortedInsert_sorted {x : Item} :
    ∀ {l : List Item}, l.Pairwise (fun a b => sortKey a ≤ sortKey b) →
      (sortedInsert x l).Pairwise (fun a b => sortKey a ≤ sortKey b) := by
  intro l hl
  induction l with
  | nil => simp [sortedInsert]
  | cons z zs ih =>
    rw [sortedInsert]
    rcases List.pairwise_cons.mp hl with ⟨hz, hzs⟩
    by_cases hle : sortKey z ≤ sortKey x
    · rw [if_pos hle]
      refine List.pairwise_cons.mpr ⟨?_, ih hzs⟩
      intro b hb
      rcases mem_sortedInsert.mp hb with rfl | hb2
      · exact hle
      · exact hz b hb2
    · rw [if_neg hle]
      refine List.pairwise_cons.mpr ⟨?_, hl⟩
      intro b hb
      rcases List.mem_cons.mp hb with rfl | hb2
      · exact le_of_not_le hle
      · exact le_trans (le_of_not_le hle) (hz b hb2)

theorem sortByScore_sorted (l : List Item) :
    (sortByScore l).Pairwise (fun a b => sortKey a ≤ sortKey b) := by
  suffices h : ∀ (l acc : List Item), acc.Pairwise (fun a b => sortKey a ≤ sortKey b) →
      (l.foldl (fun acc x => sortedInsert x acc) acc).Pairwise
        (fun a b => sortKey a ≤ sortKey b) by
    exact h l [] (by simp)
  intro l
  induction l with
  | nil => intro acc h; simpa using h
  | cons x xs ih =>
    intro acc h
    rw [List.foldl_cons]
    exact ih _ (sortedInsert_sorted h)

theorem grouped_ok_shape {audits : List (String × Audit)} {out : List (String × List Item)}
    (h : get_grouped_audits audits = .ok out) :
    ∃ out0, audits.foldlM groupStep emptyOutput = .ok out0 ∧
      out = out0.map (fun p => (p.1, sortByScore p.2)) := by
  rw [get_grouped_audits] at h
  cases hf : audits.foldlM groupStep emptyOutput with
  | error e => rw [hf] at h; cases h
  | ok out0 =>
    rw [hf] at h
    cases h
    exact ⟨out0, rfl, rfl⟩

theorem emptyOutput_keys (k : String) : groupOf k ∈ emptyOutput.map Prod.fst := by
  rw [groupOf]
  by_cases h1 : jsKeys.contains k
  · rw [if_pos h1]; decide
  rw [if_neg h1]
  by_cases h2 : cssKeys.contains k
  · rw [if_pos h2]; decide
  rw [if_neg h2]
  by_cases h3 : assetKeys.contains k
  · rw [if_pos h3]; decide
  rw [if_neg h3]
  by_cases h4 : serverKeys.contains k
  · rw [if_pos h4]; decide
  rw [if_neg h4]
  decide

theorem mem_outItems_map_sort {out : List (String × List Item)} {y : Item} :
    y ∈ outItems (out.map (fun p => (p.1, sortByScore p.2))) ↔ y ∈ outItems out := by
  induction out with
  | nil => simp [outItems]
  | cons p rest ih =>
    rw [List.map_cons, outItems_cons, outItems_cons]
    simp only [List.mem_append, mem_sortByScore, ih]

theorem appearsIn_iff_outItems {out : List (String × List Item)} {key : String} :
    appearsIn out key ↔ ∃ y ∈ outItems out, y.id = key := by
  rw [appearsIn, outItems]
  constructor
  · rintro ⟨p, hp, it, hit, hid⟩
    refine ⟨it, ?_, hid⟩
    rw [List.mem_flatten]
    exact ⟨p.2, List.mem_map_of_mem Prod.snd hp, hit⟩
  · rintro ⟨it, hit, hid⟩
    rw [List.mem_flatten] at hit
    obtain ⟨l, hl, hitl⟩ := hit
    obtain ⟨p, hp, rfl⟩ := List.mem_map.mp hl
    exact ⟨p, hp, it, hitl, hid⟩

theorem key_unique {audits : List (String × Audit)} {k : String} {a b : Audit}
    (hnodup : (audits.map Prod.fst).Nodup) (ha : (k, a) ∈ audits) (hb : (k, b) ∈ audits) :
    a = b := by
  induction audits with
  | nil => cases ha
  | cons p rest ih =>
    rw [List.map_cons, List.nodup_cons] at hnodup
    rcases List.mem_cons.mp ha with ha1 | ha2
    · rcases List.mem_cons.mp hb with hb1 | hb2
      · rw [← ha1] at hb1
        exact ((Prod.mk.injEq _ _ _ _).mp hb1.symm).2
      · exfalso
        apply hnodup.1
        have hpk : p.1 = k := by rw [← ha1]
        rw [hpk]
        exact List.mem_map_of_mem Prod.fst hb2
    · rcases List.mem_cons.mp hb with hb1 | hb2
      · exfalso
        apply hnodup.1
        have hpk : p.1 = k := by rw [← hb1]
        rw [hpk]
        exact List.mem_map_of_mem Prod.fst ha2
      · exact ih hnodup.2 ha2 hb2

/-- Central membership characterization: with the grouping call
succeeding and audit ids unique, an audit appears among the grouped
findings exactly when the code relevance filter accepts it. -/
theorem grouped_mem_iff {audits : List (String × Audit)} {out : List (String × List Item)}
    {key : String} {a : Audit}
    (hok : get_grouped_audits audits = .ok out)
    (hmem : (key, a) ∈ audits)
    (hnodup : (audits.map Prod.fst).Nodup) :
    appearsIn out key ↔ is_relevant a = true := by
  obtain ⟨out0, hf, rfl⟩ := grouped_ok_shape hok
  rw [appearsIn_iff_outItems]
  constructor
  · rintro ⟨y, hy, hid⟩
    rw [mem_outItems_map_sort,
      group_fold_mem audits emptyOutput out0 (fun k => emptyOutput_keys k) hf y] at hy
    rcases hy with hy0 | ⟨kb, hkb, hrel, hmk⟩
    · simp [outItems, emptyOutput] at hy0
    · obtain ⟨hid2, _⟩ := mkItem_ok hmk
      have hkk : kb.1 = key := by rw [← hid2, hid]
      have hkb2 : (key, kb.2) ∈ audits := by
        rw [← hkk]
        simpa using hkb
      have hab : a = kb.2 := key_unique hnodup hmem hkb2
      rw [hab]
      exact hrel
  · intro hrel
    obtain ⟨it, hmk⟩ := group_fold_steps audits emptyOutput out0 hf (key, a) hmem hrel
    refine ⟨it, ?_, (mkItem_ok hmk).1⟩
    rw [mem_outItems_map_sort,
      group_fold_mem audits emptyOutput out0 (fun k => emptyOutput_keys k) hf it]
    exact Or.inr ⟨(key, a), hmem, hrel, hmk⟩

theorem grouped_item_of_relevant {audits : List (String × Audit)}
    {out : List (String × List Item)} {key : String} {a : Audit}
    (hok : get_grouped_audits audits = .ok out) (hmem : (key, a) ∈ audits)
    (hrel : is_relevant a = true) :
    ∃ p ∈ out, ∃ it ∈ p.2, it.id = key ∧ it.score = a.score := by
  obtain ⟨out0, hf, rfl⟩ := grouped_ok_shape hok
  obtain ⟨it, hmk⟩ := group_fold_steps audits emptyOutput out0 hf (key, a) hmem hrel
  obtain ⟨hid, hsc⟩ := mkItem_ok hmk
  have hin : it ∈ outItems (out0.map (fun p => (p.1, sortByScore p.2))) := by
    rw [mem_outItems_map_sort,
      group_fold_mem audits emptyOutput out0 (fun k => emptyOutput_keys k) hf it]
    exact Or.inr ⟨(key, a), hmem, hrel, hmk⟩
  rw [outItems, List.mem_flatten] at hin
  obtain ⟨l, hl, hitl⟩ := hin
  obtain ⟨p, hp, rfl⟩ := List.mem_map.mp hl
  exact ⟨p, hp, it, hitl, hid, hsc⟩

theorem grouped_sorted {audits : List (String × Audit)} {out : List (String × List Item)}
    {g : String} {l : List Item}
    (hok : get_grouped_audits audits = .ok out) (hgl : (g, l) ∈ out) :
    l.Pairwise (fun x y => sortKey x ≤ sortKey y) := by
  obtain ⟨out0, hf, rfl⟩ := grouped_ok_shape hok
  obtain ⟨p, hp, heq⟩ := List.mem_map.mp hgl
  have h2 : sortByScore p.2 = l := congrArg Prod.snd heq
  rw [← h2]
  exact sortByScore_sorted p.2

/-! Concrete fixtures used by the claim counterexamples and witnesses. -/

/-- A null-score audit whose scoreDisplayMode is "manual" (not
"informative") but whose details carry a non-empty items list. -/
def cxAudit : Audit :=
  { score := none, scoreDisplayMode := "manual", title := none, displayValue := none
    description := "", details := [("items", .arr [.obj []])] }

/-- The finding the pipeline builds for `cxAudit`. -/
def cxItem : Item :=
  { id := "cx-audit", title := none, score := none, displayValue := none
    description := "", savings := .num 0, data := some [[]] }

/-- The grouped output for the singleton audit map holding `cxAudit`. -/
def cxOut : List (String × List Item) :=
  [("JavaScript & CPU", []), ("CSS & Design", []), ("Assets (Images/Fonts)", []),
   ("Server & Network", []), ("Other", [cxItem])]

/-- An audit with scoreDisplayMode "notApplicable" and score 0.5. -/
def naAudit : Audit :=
  { score := some (mkRat 1 2), scoreDisplayMode := "notApplicable", title := none
    displayValue := none, description := "", details := [] }

/-- The finding the pipeline builds for `naAudit`. -/
def naItem : Item :=
  { id := "na-audit", title := none, score := some (mkRat 1 2), displayValue := none
    description := "", savings := .num 0, data := none }

/-- The grouped output for the singleton audit map holding `naAudit`. -/
def naOut : List (String × List Item) :=
  [("JavaScript & CPU", []), ("CSS & Design", []), ("Assets (Images/Fonts)", []),
   ("Server & Network", []), ("Other", [naItem])]

/-- A numeric failing audit used by the C1 witness. -/
def w1Audit : Audit :=
  { score := some (mkRat 3 10), scoreDisplayMode := "numeric", title := none
    displayValue := none, description := "", details := [] }

/-- The grouped output for the singleton audit map holding `w1Audit`. -/
def w1Out : List (String × List Item) :=
  [("JavaScript & CPU", []), ("CSS & Design", []), ("Assets (Images/Fonts)", []),
   ("Server & Network", []),
   ("Other", [{ id := "w1-audit", title := none, score := some (mkRat 3 10),
                displayValue := none, description := "", savings := .num 0,
                data := none }])]

/-- A notApplicable audit with null score and no detail items. -/
def w2Audit : Audit :=
  { score := none, scoreDisplayMode := "notApplicable", title := none
    displayValue := none, description := "", details := [] }

/-- An audit whose details hold only a dependency-chain payload. -/
def chainsAudit : Audit :=
  { score := none, scoreDisplayMode := "informative", title := none
    displayValue := some "2 chains", description := ""
    details := [("chains", .obj [("A", .obj [("request", .obj [("url", .str "a.js"),
      ("transferSize", .num 100), ("startTime", .num 0)])])])] }

/-- A second chains-only audit, used by the C5 witness. -/
def chainsAudit2 : Audit :=
  { score := none, scoreDisplayMode := "informative", title := none
    displayValue := none, description := ""
    details := [("chains", .obj [("B", .obj [("request", .obj [("url", .str "b.css"),
      ("transferSize", .num 2048), ("startTime", .num 5)])])]),
      ("overallSavingsMs", .num 0)] }

/-- Audit map used by the C10 witness: a scored failure and a null-score
informational audit with data. -/
def w10Audits : List (String × Audit) :=
  [("wa-audit", { score := some (mkRat 1 2), scoreDisplayMode := "numeric", title := none
                  displayValue := none, description := "", details := [] }),
   ("wb-audit", { score := none, scoreDisplayMode := "informative", title := none
                  displayValue := none, description := ""
                  details := [("items", .arr [.obj []])] })]

/-- The "Other" group the pipeline produces for `w10Audits`. -/
def w10Items : List Item :=
  [{ id := "wa-audit", title := none, score := some (mkRat 1 2), displayValue := none
     description := "", savings := .num 0, data := none },
   { id := "wb-audit", title := none, score := none, displayValue := none
     description := "", savings := .num 0, data := some [[]] }]

/-- The grouped output for `w10Audits`. -/
def w10Out : List (String × List Item) :=
  [("JavaScript & CPU", []), ("CSS & Design", []), ("Assets (Images/Fonts)", []),
   ("Server & Network", []), ("Other", w10Items)]


/-! The claims. -/

/-- C1 counterexample: a null-score audit whose scoreDisplayMode is
"manual" (not "informative") with a non-empty items list appears in the
grouped findings, although the claimed relevance formula rejects it. -/
theorem c1_counterexample :
    get_grouped_audits [("cx-audit", cxAudit)] = .ok cxOut ∧
    appearsIn cxOut "cx-audit" ∧ ¬ spec_is_relevant cxAudit := by
  refine ⟨rfl, ⟨("Other", [cxItem]), ?_, cxItem, List.mem_cons_self _ _, rfl⟩, ?_⟩
  · exact List.Mem.tail _ (List.Mem.tail _ (List.Mem.tail _
      (List.Mem.tail _ (List.Mem.head _))))
  · rintro (⟨s, hs, _⟩ | ⟨_, hmode, _⟩)
    · exact Option.noConfusion hs
    · exact absurd hmode (by decide)

/-- C1 (amended): an audit appears in the grouped findings iff its score
is non-null and < 0.9, or its score is null and its details carry a
truthy items entry; scoreDisplayMode and displayValue are never
consulted.  Every non-null-score audit with score < 0.9 appears with
priority high when score < 0.5 and medium otherwise. -/
theorem c1_relevance (audits : List (String × Audit)) (out : List (String × List Item))
    (key : String) (a : Audit)
    (hok : get_grouped_audits audits = Except.ok out)
    (hmem : (key, a) ∈ audits)
    (hnodup : (audits.map Prod.fst).Nodup) :
    (appearsIn out key ↔ is_relevant a = true) ∧
    (∀ s : ℚ, a.score = some s → s < mkRat 9 10 →
      ∃ p ∈ out, ∃ it ∈ p.2, it.id = key ∧ it.score = some s ∧
        priorityOf it = (if s < mkRat 1 2 then "high" else "medium")) := by
  refine ⟨grouped_mem_iff hok hmem hnodup, ?_⟩
  intro s hs hlt
  have hrel : is_relevant a = true := by
    simp only [is_relevant, hs]
    exact decide_eq_true hlt
  obtain ⟨p, hp, it, hit, hid, hsc⟩ := grouped_item_of_relevant hok hmem hrel
  refine ⟨p, hp, it, hit, hid, ?_, ?_⟩
  · rw [hsc, hs]
  · rw [priorityOf, hsc, hs]

/-- C1 witness: the amended theorem applied to a concrete one-audit map
with score 0.3. -/
theorem c1_relevance_witness : appearsIn w1Out "w1-audit" :=
  (c1_relevance [("w1-audit", w1Audit)] w1Out "w1-audit" w1Audit rfl
    (List.mem_cons_self _ _) (by simp)).1.mpr rfl

/-- C2 counterexample: an audit with scoreDisplayMode "notApplicable"
and score 0.5 appears in the grouped findings; the code never consults
scoreDisplayMode. -/
theorem c2_counterexample :
    get_grouped_audits [("na-audit", naAudit)] = .ok naOut ∧
    naAudit.scoreDisplayMode = "notApplicable" ∧ appearsIn naOut "na-audit" := by
  refine ⟨rfl, rfl, ⟨("Other", [naItem]), ?_, naItem, List.mem_cons_self _ _, rfl⟩⟩
  exact List.Mem.tail _ (List.Mem.tail _ (List.Mem.tail _
    (List.Mem.tail _ (List.Mem.head _))))

/-- C2 (amended): a notApplicable audit is excluded exactly when the
score/items filter rejects it — with a null score and no truthy items
entry it never appears; scoreDisplayMode itself is ignored. -/
theorem c2_not_applicable (audits : List (String × Audit)) (out : List (String × List Item))
    (key : String) (a : Audit)
    (hok : get_grouped_audits audits = Except.ok out)
    (hmem : (key, a) ∈ audits)
    (hnodup : (audits.map Prod.fst).Nodup)
    (hmode : a.scoreDisplayMode = "notApplicable")
    (hscore : a.score = none)
    (hnodata : has_data a = false) :
    ¬ appearsIn out key := by
  intro happ
  have hrel := (grouped_mem_iff hok hmem hnodup).mp happ
  simp [is_relevant, hscore, hnodata] at hrel

/-- C2 witness: the amended theorem applied to a concrete notApplicable
audit with null score and empty details. -/
theorem c2_not_applicable_witness : ¬ appearsIn emptyOutput "w2-audit" :=
  c2_not_applicable [("w2-audit", w2Audit)] emptyOutput "w2-audit" w2Audit rfl
    (List.mem_cons_self _ _) (by simp) rfl rfl rfl

/-- C3 counterexample: for an HTTP 400 response with body
`{"error":{"message":"Invalid URL"}}` the fetch error message is
"Google API Error: Invalid URL", not exactly "Invalid URL". -/
theorem c3_counterexample :
    run_pagespeed ⟨400, some (.obj [("error", .obj [("message", .str "Invalid URL")])])⟩ =
      .error "Google API Error: Invalid URL" ∧
    ("Google API Error: Invalid URL" : String) ≠ "Invalid URL" :=
  ⟨rfl, by decide⟩

/-- C3 (amended): on a non-200 response the fetch result is an error
whose message is the extracted human-readable message prefixed with
"Google API Error: ", falling back to "Google API Error: Status code"
when the body is not JSON-shaped. -/
theorem c3_error_message (r : HttpResponse) (hs : r.status_code ≠ 200) :
    (∀ fs efs m, r.body = some (.obj fs) → dget fs "error" = some (.obj efs) →
      dget efs "message" = some (.str m) →
      run_pagespeed r = .error ("Google API Error: " ++ m)) ∧
    (r.body = none →
      run_pagespeed r = .error ("Google API Error: Status " ++ toString r.status_code)) := by
  constructor
  · intro fs efs m hb he hm
    simp only [run_pagespeed, extract_error, hb, he, hm, if_neg hs]
    rfl
  · intro hb
    simp only [run_pagespeed, extract_error, hb, if_neg hs]
    rfl

/-- C3 witness: the amended theorem applied to a 404 with a JSON error
body and a 500 with a non-JSON body. -/
theorem c3_error_message_witness :
    run_pagespeed ⟨404, some (.obj [("error", .obj [("message", .str "Not Found")])])⟩ =
      .error "Google API Error: Not Found" ∧
    run_pagespeed ⟨500, none⟩ = .error "Google API Error: Status 500" := by
  constructor
  · exact (c3_error_message ⟨404, some (.obj [("error", .obj
      [("message", .str "Not Found")])])⟩ (by decide)).1 _ _ _ rfl rfl rfl
  · exact (c3_error_message ⟨500, none⟩ (by decide)).2 rfl

/-- C4 counterexample: the description cleanup keeps the link text, so
the spec's example cleans to "Reduce unused CSS. Learn more", not to
"Reduce unused CSS.". -/
theorem c4_counterexample :
    strip_markdown_links "Reduce unused CSS. [Learn more](https://x.test)" =
      "Reduce unused CSS. Learn more" ∧
    strip_markdown_links "Reduce unused CSS. [Learn more](https://x.test)" ≠
      "Reduce unused CSS." :=
  ⟨rfl, by decide⟩

/-- C4 (amended): each markdown link `[text](url)` in the description is
replaced by its link text (not removed outright), and scanning continues
after the link. -/
theorem c4_strip_replaces (pre text url post : List Char)
    (hpre : '[' ∉ pre) (ht1 : ']' ∉ text) (ht2 : '\n' ∉ text)
    (hu1 : ')' ∉ url) (hu2 : '\n' ∉ url) :
    strip_markdown_links
        (String.mk (pre ++ '[' :: (text ++ ']' :: '(' :: (url ++ ')' :: post)))) =
      String.mk (pre ++ text ++ stripLinks post) := by
  rw [strip_markdown_links]
  exact congrArg String.mk (stripLinks_replace hpre ht1 ht2 hu1 hu2)

/-- C4 witness: the amended theorem applied to a concrete description. -/
theorem c4_strip_replaces_witness :
    strip_markdown_links "See docs. [here](https://a.test) now" = "See docs. here now" := by
  have h := c4_strip_replaces "See docs. ".toList "here".toList "https://a.test".toList
    " now".toList (by decide) (by decide) (by decide) (by decide) (by decide)
  exact h

/-- C5 counterexample: a details payload holding only a `chains` tree
produces no evidence rows at all — `extract_details` returns None. -/
theorem c5_counterexample :
    extract_details chainsAudit = .ok none ∧
    ∀ rows : List Row, extract_details chainsAudit ≠ .ok (some rows) := by
  refine ⟨rfl, ?_⟩
  intro rows h
  rw [show extract_details chainsAudit = .ok none from rfl] at h
  simp at h

/-- C5 (amended): dependency chains are not flattened: a details
dictionary carrying a `chains` entry but no `items` entry yields no
evidence table. -/
theorem c5_chains_no_table (a : Audit) (c : Val)
    (hchains : dget a.details "chains" = some c)
    (hitems : dget a.details "items" = none) :
    extract_details a = .ok none := by
  rw [extract_details, hitems]

/-- C5 witness: the amended theorem applied to a concrete chains-only
audit. -/
theorem c5_chains_no_table_witness : extract_details chainsAudit2 = .ok none :=
  c5_chains_no_table chainsAudit2 _ rfl rfl

/-- C6 counterexample: a key containing "wasted" (but none of the actual
substrings) is not time-formatted — the raw number is returned; and a
value of -2000 under a time key renders as "-2000 ms", not as seconds,
because the code compares the signed value, not the magnitude. -/
theorem c6_counterexample :
    format_col (.str "wasted") (.num 2048) = .ok (.num 2048) ∧
    format_col (.str "wasted") (.num 2048) ≠ .ok (.str "2.05 s") ∧
    format_col (.str "time") (.num (-2000)) = .ok (.str "-2000 ms") ∧
    format_col (.str "time") (.num (-2000)) ≠ .ok (.str "-2.00 s") := by
  refine ⟨rfl, ?_, rfl, ?_⟩
  · intro h
    rw [show format_col (.str "wasted") (.num 2048) = .ok (.num 2048) from rfl] at h
    injection h with h2
    exact Val.noConfusion h2
  · intro h
    rw [show format_col (.str "time") (.num (-2000)) = .ok (.str "-2000 ms") from rfl] at h
    injection h with h2
    injection h2 with h3
    exact absurd h3 (by decide)

/-- C6 (amended): keys containing "byte"/"size"/"transfer" (after
lowercasing) divide the value by 1024 and suffix " KB"; otherwise keys
containing "time"/"ms"/"dur" render milliseconds, switching to seconds
only when the signed value exceeds 1000. -/
theorem c6_numeric_format (k : String) (q : ℚ) :
    ((hasSubstr "byte" (lowerStr k) || hasSubstr "size" (lowerStr k) ||
        hasSubstr "transfer" (lowerStr k)) = true →
      format_col (.str k) (.num q) = .ok (.str (fmtFixed 1 (q / 1024) ++ " KB"))) ∧
    ((hasSubstr "byte" (lowerStr k) || hasSubstr "size" (lowerStr k) ||
        hasSubstr "transfer" (lowerStr k)) = false →
      (hasSubstr "time" (lowerStr k) || hasSubstr "ms" (lowerStr k) ||
        hasSubstr "dur" (lowerStr k)) = true →
      format_col (.str k) (.num q) =
        .ok (.str (if q > 1000 then fmtFixed 2 (q / 1000) ++ " s"
                   else fmtFixed 0 q ++ " ms"))) := by
  have hk : lowerStr (pyStr (Val.str k)) = lowerStr k := rfl
  constructor
  · intro hb
    simp only [format_col, hk]
    rw [if_pos hb, qdiv_eq]
  · intro hb ht
    simp only [format_col, hk]
    rw [if_neg (by simp [hb]), if_pos ht]
    by_cases hq : q > 1000
    · rw [if_pos hq, if_pos hq, qdiv_eq]
    · rw [if_neg hq, if_neg hq]

/-- C6 witness: the amended theorem applied to the spec's example, 2048
under key "transferSize". -/
theorem c6_numeric_format_witness :
    format_col (.str "transferSize") (.num 2048) = .ok (.str "2.0 KB") := by
  have h := (c6_numeric_format "transferSize" 2048).1 (by decide)
  have h2 : ((2048 : ℚ) / 1024) = (2 : ℚ) := by norm_num
  rw [h2] at h
  exact h

/-- C7 counterexample: an object holding only a `selector` field is not
unwrapped to the selector — it falls to the generic `str(dict)`
fallback, whose result is the dict's repr, not "div.foo". -/
theorem c7_counterexample :
    clean_value (.obj [("selector", .str "div.foo")]) =
      .ok (.str (pyRepr (.obj [("selector", .str "div.foo")]))) ∧
    pyRepr (.obj [("selector", .str "div.foo")]) ≠ "div.foo" :=
  ⟨rfl, by decide⟩

/-- C7 (amended): object cells are unwrapped by probing, in order,
`url` (returning the raw url value), `snippet`, `value` (stringified),
then `source` (recursed into), and otherwise fall back to the Python
`str` of the dict; a `selector` field is not treated specially. -/
theorem c7_clean_value_branches (fs : List (String × Val)) :
    (∀ u, dget fs "url" = some u → clean_value (.obj fs) = .ok u) ∧
    (dget fs "url" = none → ∀ s, dget fs "snippet" = some s →
      clean_value (.obj fs) = .ok s) ∧
    (dget fs "url" = none → dget fs "snippet" = none → ∀ v, dget fs "value" = some v →
      clean_value (.obj fs) = .ok (.str (pyStr v))) ∧
    (dget fs "url" = none → dget fs "snippet" = none → dget fs "value" = none →
      ∀ w, dget fs "source" = some w → clean_value (.obj fs) = clean_value w) ∧
    (dget fs "url" = none → dget fs "snippet" = none → dget fs "value" = none →
      dget fs "source" = none → clean_value (.obj fs) = .ok (.str (pyRepr (.obj fs)))) := by
  have hv : vsize (Val.obj fs) = psize fs + 1 := by rw [vsize]; omega
  refine ⟨?_, ?_, ?_, ?_, ?_⟩
  · intro u hu
    rw [clean_value, hv, cvFuel, hu]
  · intro hu s hs
    rw [clean_value, hv, cvFuel, hu, hs]
  · intro hu hs v hval
    rw [clean_value, hv, cvFuel, hu, hs, hval]
  · intro hu hs hval w hsrc
    rw [clean_value, hv, cvFuel, hu, hs, hval, hsrc]
    have hlt : vsize w < psize fs := mem_psize (dget_mem hsrc)
    exact cvFuel_irrel (psize fs) w (by omega)
  · intro hu hs hval hsrc
    rw [clean_value, hv, cvFuel, hu, hs, hval, hsrc]
    rfl

/-- C7 witness: the url branch of the amended theorem at a concrete
object. -/
theorem c7_clean_value_branches_witness :
    clean_value (.obj [("url", .str "a.css")]) = .ok (.str "a.css") :=
  (c7_clean_value_branches [("url", .str "a.css")]).1 (.str "a.css") rfl

/-- C8 counterexample: a numeric primitive cell under a byte-like key is
not returned unchanged — 2048 under "transferSize" is reformatted to the
string "2.0 KB". -/
theorem c8_counterexample :
    format_col (.str "transferSize") (.num 2048) = .ok (.str "2.0 KB") ∧
    (Val.str "2.0 KB" ≠ Val.num 2048) := by
  refine ⟨rfl, ?_⟩
  intro h
  exact Val.noConfusion h

/-- C8 (amended): the flatten/format step is the identity on string
cells (hence on already-formatted rows) and on numeric cells whose key
carries no unit hint; numeric cells under unit-hinted keys are
reformatted into strings. -/
theorem c8_flat_cells_fixed :
    (∀ (k : Val) (s : String), format_col k (.str s) = .ok (.str s)) ∧
    (∀ (k : Val) (q : ℚ),
      (hasSubstr "byte" (lowerStr (pyStr k)) || hasSubstr "size" (lowerStr (pyStr k)) ||
        hasSubstr "transfer" (lowerStr (pyStr k))) = false →
      (hasSubstr "time" (lowerStr (pyStr k)) || hasSubstr "ms" (lowerStr (pyStr k)) ||
        hasSubstr "dur" (lowerStr (pyStr k))) = false →
      format_col k (.num q) = .ok (.num q)) := by
  constructor
  · intro k s
    rfl
  · intro k q h1 h2
    simp only [format_col]
    rw [if_neg (by simp [h1]), if_neg (by simp [h2])]
    rfl

/-- C8 witness: the amended theorem applied to a formatted string cell
and to a number under a unit-free key. -/
theorem c8_flat_cells_fixed_witness :
    format_col (.str "transferSize") (.str "2.0 KB") = .ok (.str "2.0 KB") ∧
    format_col (.str "rating") (.num 7) = .ok (.num 7) :=
  ⟨c8_flat_cells_fixed.1 (.str "transferSize") "2.0 KB",
   c8_flat_cells_fixed.2 (.str "rating") 7 (by decide) (by decide)⟩

/-- C9 counterexample: the normalization checks the literal prefix
"http", not scheme presence: "ftp://cdn.example" carries a scheme but is
prefixed anyway, while "httpdocs" has no scheme yet passes unchanged. -/
theorem c9_counterexample :
    url_has_scheme "ftp://cdn.example" ∧
    normalize_url "ftp://cdn.example" ≠ "ftp://cdn.example" ∧
    ¬ url_has_scheme "httpdocs" ∧
    normalize_url "httpdocs" = "httpdocs" := by
  refine ⟨by decide, ?_, by decide, rfl⟩
  intro h
  rw [show normalize_url "ftp://cdn.example" = "https://ftp://cdn.example" from rfl] at h
  exact absurd h (by decide)

/-- C9 (amended): "https://" is prefixed exactly when the url does not
start with the literal "http"; a url starting with "http" is passed
through unchanged. -/
theorem c9_normalize_scheme (u : String) :
    (normalize_url u = u ↔ startsWithStr "http" u = true) ∧
    (startsWithStr "http" u = false → normalize_url u = "https://" ++ u) := by
  by_cases hsw : startsWithStr "http" u = true
  · refine ⟨⟨fun _ => hsw, fun _ => ?_⟩, fun hf => ?_⟩
    · rw [normalize_url, if_pos hsw]
    · rw [hf] at hsw
      exact Bool.noConfusion hsw
  · have hne : normalize_url u = "https://" ++ u := by
      rw [normalize_url, if_neg hsw]
    refine ⟨⟨fun h => ?_, fun ht => absurd ht hsw⟩, fun _ => hne⟩
    exfalso
    rw [hne] at h
    have hl := congrArg String.length h
    rw [String.length_append] at hl
    rw [show ("https://" : String).length = 8 from rfl] at hl
    omega

/-- C9 witness: the amended theorem applied to a bare domain. -/
theorem c9_normalize_scheme_witness :
    normalize_url "example.com" = "https://example.com" :=
  (c9_normalize_scheme "example.com").2 rfl

/-- C10: every group of the grouped output is sorted ascending by score
with a null score keyed as exactly 1, so a null-score (informational)
finding never precedes a finding whose score is below 1. -/
theorem c10_group_sorted (audits : List (String × Audit)) (out : List (String × List Item))
    (g : String) (l : List Item)
    (hok : get_grouped_audits audits = Except.ok out)
    (hgl : (g, l) ∈ out) :
    l.Pairwise (fun x y => sortKey x ≤ sortKey y) ∧
    l.Pairwise (fun x y => x.score = none → ∀ s : ℚ, y.score = some s → 1 ≤ s) := by
  have hsorted := grouped_sorted hok hgl
  refine ⟨hsorted, hsorted.imp ?_⟩
  intro x y hxy hxnone s hys
  have h1 : sortKey x = 1 := by simp [sortKey, hxnone]
  have h2 : sortKey y = s := by simp [sortKey, hys]
  rw [h1, h2] at hxy
  exact hxy

/-- C10 witness: the sortedness theorem applied to a concrete two-audit
map whose "Other" group holds a scored and a null-score finding. -/
theorem c10_group_sorted_witness :
    List.Pairwise (fun x y => sortKey x ≤ sortKey y) w10Items :=
  (c10_group_sorted w10Audits w10Out "Other" w10Items rfl
    (List.Mem.tail _ (List.Mem.tail _ (List.Mem.tail _
      (List.Mem.tail _ (List.Mem.head _)))))).1

end PageSpeed
